import Mathlib

/-!
Shallow embedding of the WavUp audio conversion pipeline
(src/lib.rs, src/main.rs, src/error.rs) and verification of the
specification's claims about quantization, chunked resampling and
trailing-silence trimming.

Float samples are modelled as exact rationals (every finite f32 value is a
rational; the spots where an f32 computation could round are noted at the
corresponding definition).  Machine integers are modelled as Nat / Int with
explicit saturation where the source casts.
-/

namespace WavUp

/-- Error enum from src/error.rs.  The source file declares only `IoError`,
`DecoderError`, `ResamplerError` and `UnsupportedFormat`; lib.rs:337
additionally constructs `AudioConversionError::InvalidSampleCount`, a variant
error.rs never declares (the crate as given does not compile).  The model
includes that variant so the behaviour lib.rs expresses can be stated. -/
inductive AudioConversionError where
  | IoError : String → AudioConversionError
  | DecoderError : String → AudioConversionError
  | ResamplerError : String → AudioConversionError
  | UnsupportedFormat : String → AudioConversionError
  | InvalidSampleCount : String → AudioConversionError
deriving DecidableEq, Repr

/-- Decidable equality for `Except`, so concrete runs of the fallible
operations can be checked by `decide`. -/
instance {ε α : Type} [DecidableEq ε] [DecidableEq α] : DecidableEq (Except ε α) := fun a b =>
  match a, b with
  | .ok x, .ok y => if h : x = y then .isTrue (by rw [h]) else .isFalse (by simp [h])
  | .error x, .error y => if h : x = y then .isTrue (by rw [h]) else .isFalse (by simp [h])
  | .ok _, .error _ => .isFalse (by simp)
  | .error _, .ok _ => .isFalse (by simp)

/-- Round a rational toward zero: the rounding Rust's float-to-int `as` cast
performs before saturation — floor for nonnegative values, ceiling for
negative ones. -/
def rtzQ (q : ℚ) : ℤ := if 0 ≤ q then ⌊q⌋ else ⌈q⌉

/-- Rust `f32 as i16` semantics: round toward zero, then saturate to the
i16 range [-32768, 32767].  (NaN, which Rust maps to 0, has no counterpart
in ℚ.)  Rust's float-to-int casts saturate; they do not wrap. -/
def f32_to_i16 (q : ℚ) : ℤ := max (-32768) (min 32767 (rtzQ q))

/-- lib.rs:170 and lib.rs:250 — `(sample * 32768.0_f32) as i16`.
Multiplication by 32768 = 2^15 is exact in f32 (pure exponent shift), so the
rational product is the f32 product for every sample that does not overflow. -/
def quantizeLib (s : ℚ) : ℤ := f32_to_i16 (s * 32768)

/-- main.rs:128, main.rs:138, main.rs:172 — `(sample * i16::MAX as f32) as i16`
with `i16::MAX = 32767`.  The f32 product can round for samples with long
mantissas; it is exact at every input used in the theorems below. -/
def quantizeMain (s : ℚ) : ℤ := f32_to_i16 (s * 32767)

/-- Wrap an integer into the i16 two's-complement range: the behaviour the
spec's "wrap per the target language's float-to-int truncation semantics"
would produce.  Rust does not do this (it saturates). -/
def wrap16 (n : ℤ) : ℤ := (n + 32768) % 65536 - 32768

/-! ## Trailing-silence trimmer (lib.rs:301-366) -/

/-- Exact value of the f32 literal `0.01_f32` (lib.rs:314): 10737418 × 2⁻³⁰
(the nearest binary32 value to 1/100). -/
def threshold : ℚ := Rat.divInt 10737418 1073741824

/-- lib.rs:364-366 `is_silent`: `sample.abs() < threshold`. -/
def is_silent (sample thr : ℚ) : Bool := decide (|sample| < thr)

/-- Flattened indices visited by the backward scan
`(0..num_samples).rev().step_by(channels)` (lib.rs:342):
num_samples-1, num_samples-1-channels, num_samples-1-2*channels, … -/
def scanIndices (num channels : Nat) : List Nat :=
  (List.range num).reverse.filter fun i => (num - 1 - i) % channels == 0

/-- Inner loop of the scan (lib.rs:343-350): frame test at flattened offset
`i` — some channel `ch < channels` has a non-silent sample at `i + ch`.
Out-of-range reads yield 0 (which is silent); the source reads are in bounds
whenever `channels` divides `samples.len()`. -/
def frameNonSilent (samples : List ℚ) (channels i : Nat) : Bool :=
  (List.range channels).any fun ch => !(is_silent (samples.getD (i + ch) 0) threshold)

/-- lib.rs:317 and lib.rs:340-354: value of `last_non_silent_index` after the
backward scan — the first scanned index whose frame is non-silent, else the
initial value 0. -/
def lastNonSilentIndex (samples : List ℚ) (channels num : Nat) : Nat :=
  ((scanIndices num channels).find? (frameNonSilent samples channels)).getD 0

/-- Error message built at lib.rs:329-333. -/
def invalidCountMsg (n channels : Nat) : String :=
  s!"The number of samples is not divisible by the number of channels. samples.len(): {n}, channels: {channels}"

/-- lib.rs:301-362 `trim_ending_silence`.  The guard computation
`(0.5 * sample_rate as f32) as usize` (lib.rs:357-358) equals
`sample_rate / 2` (Nat division) exactly for every `sample_rate < 2²⁵`,
which covers the whole u32 audio-rate range in use. -/
def trim_ending_silence (samples : List ℚ) (channels : Nat) (sample_rate : Nat) :
    Except AudioConversionError (List ℚ) :=
  let n := samples.length
  if n % channels ≠ 0 then
    Except.error (AudioConversionError.InvalidSampleCount (invalidCountMsg n channels))
  else
    let num_samples := n / channels
    let last := lastNonSilentIndex samples channels num_samples
    let buffer_samples := (sample_rate / 2) * channels
    let trim_index := min (last + channels - 1 + buffer_samples) n
    Except.ok (samples.take trim_index)

/-- lib.rs:157-171, the `original_sample_rate == target_sample_rate` branch:
decoded samples are trimmed (`process_audio_samples` always calls
`trim_ending_silence`, lib.rs:298) and then each sample is written as
`(sample * 32768.0_f32) as i16`; no resampler is constructed. -/
def identityPathOutput (samples : List ℚ) (channels sample_rate : Nat) :
    Except AudioConversionError (List ℤ) :=
  match trim_ending_silence samples channels sample_rate with
  | Except.error e => Except.error e
  | Except.ok out => Except.ok (out.map quantizeLib)

/-- main.rs:133-142, the equal-rates branch: every decoded sample is written
directly as `(sample * i16::MAX as f32) as i16`; no trimming exists in
main.rs. -/
def mainIdentityOutput (samples : List ℚ) : List ℤ := samples.map quantizeMain

/-! ## Chunked resampling loop (lib.rs:197-253, main.rs:100-177)

The opaque block converter (`rubato::FftFixedInOut::process`) is modelled as
a parameter `f : List (List ℚ) → Option (List (List ℚ))` taking and
returning per-channel frame lists; `none` models `Err`.  `input` is the
deinterleaved sample buffer, one inner list per channel (lib.rs:192-195),
so the channel count is `input.length`. -/

/-- lib.rs:231 `resize(chunk_size, 0.0)`: force the length to exactly `n`,
padding with zeros (or truncating). -/
def resizeTo (l : List ℚ) (n : Nat) : List ℚ :=
  l.take n ++ List.replicate (n - l.length) 0

/-- main.rs:156-159: pad with zeros only when shorter than `n` (main.rs never
truncates the tail chunk). -/
def padIfShort (l : List ℚ) (n : Nat) : List ℚ :=
  if l.length < n then l ++ List.replicate (n - l.length) 0 else l

/-- lib.rs:212-215: the chunk handed to `process` at frame position `pos` —
frames `pos..pos+C` of every channel. -/
def chunkAt (input : List (List ℚ)) (C pos : Nat) : List (List ℚ) :=
  input.map fun chn => (chn.drop pos).take C

/-- lib.rs:210-223, the full-chunk while loop, instrumented to return the
chunks passed to `process`, in order.  The source guard is
`pos + chunk_size <= input_channels[0].len()`; the added `0 < C` conjunct
only excludes C = 0, for which the source loop would never terminate. -/
def fullChunkTrace (input : List (List ℚ)) (C pos : Nat) : List (List (List ℚ)) :=
  if h : 0 < C ∧ pos + C ≤ (input.headD []).length then
    chunkAt input C pos :: fullChunkTrace input C (pos + C)
  else []
  termination_by (input.headD []).length - pos
  decreasing_by simp_wf; rw [List.headD_eq_head?] at h; omega

/-- Value of `pos` when the full-chunk loop exits. -/
def loopExitPos (N C pos : Nat) : Nat :=
  if h : 0 < C ∧ pos + C ≤ N then loopExitPos N C (pos + C) else pos
  termination_by N - pos
  decreasing_by simp_wf; omega

/-- lib.rs:207-223: per-channel outputs accumulated over the full-chunk loop.
A chunk whose `process` call fails contributes nothing and the loop simply
moves on (`if let Ok`, lib.rs:217); the source appends `resampled_chunk[ch]`
for every channel, modelled by the `zipWith` append. -/
def resampleGo (f : List (List ℚ) → Option (List (List ℚ))) (C : Nat)
    (input : List (List ℚ)) (pos : Nat) : List (List ℚ) :=
  if h : 0 < C ∧ pos + C ≤ (input.headD []).length then
    match f (chunkAt input C pos) with
    | some rc => List.zipWith (· ++ ·) rc (resampleGo f C input (pos + C))
    | none => resampleGo f C input (pos + C)
  else input.map fun _ => []
  termination_by (input.headD []).length - pos
  decreasing_by
    all_goals simp_wf
    all_goals rw [List.headD_eq_head?] at h
    all_goals omega

/-- lib.rs:205-242: the whole resampling stage — full-chunk loop followed by
the padded-tail block.  The tail's output is truncated to
`(remaining input frames) * target / source` frames (lib.rs:235-239); the
source slice `[..remaining_samples]` panics when that count exceeds the
converter's output length, whereas `List.take` is total — the theorems below
assume the in-bounds case.  A failing tail `process` is skipped just like a
failing full chunk (`if let Ok`, lib.rs:234). -/
def resampleAll (f : List (List ℚ) → Option (List (List ℚ))) (C : Nat)
    (input : List (List ℚ)) (target source : Nat) : List (List ℚ) :=
  if loopExitPos (input.headD []).length C 0 < (input.headD []).length then
    match f (input.map fun chn =>
        resizeTo (chn.drop (loopExitPos (input.headD []).length C 0)) C) with
    | some rc =>
        List.zipWith
          (fun a b => a ++ b.take
            (((input.headD []).length - loopExitPos (input.headD []).length C 0)
              * target / source))
          (resampleGo f C input 0) rc
    | none => resampleGo f C input 0
  else resampleGo f C input 0

/-- The chunks handed to `process` over the whole conversion: the full chunks
in order, then the zero-padded tail chunk exactly when the loop exits before
the end of the input. -/
def resampleTrace (input : List (List ℚ)) (C : Nat) : List (List (List ℚ)) :=
  fullChunkTrace input C 0 ++
    (if loopExitPos (input.headD []).length C 0 < (input.headD []).length then
      [input.map fun chn =>
        resizeTo (chn.drop (loopExitPos (input.headD []).length C 0)) C]
    else [])

/-- main.rs:112-132: drain-and-process loop.  Takes the accumulated buffer,
returns the concatenated per-channel outputs and the leftover (< C frames)
buffer; `none` models the `expect` panic on a failed `process`. -/
def mainGo (f : List (List ℚ) → Option (List (List ℚ))) (C : Nat)
    (acc : List (List ℚ)) : Option (List (List ℚ) × List (List ℚ)) :=
  if h : 0 < C ∧ C ≤ (acc.headD []).length then
    match f (acc.map fun chn => chn.take C) with
    | none => none
    | some rc =>
      match mainGo f C (acc.map fun chn => chn.drop C) with
      | none => none
      | some (rest, leftover) => some (List.zipWith (· ++ ·) rc rest, leftover)
  else some (acc.map fun _ => [], acc)
  termination_by (acc.headD []).length
  decreasing_by
    simp_wf
    rw [List.headD_eq_head?] at h
    obtain ⟨h1, h2⟩ := h
    cases acc with
    | nil => simp at h2; omega
    | cons a t => simp_all [List.headD_eq_head?]; omega

/-- main.rs:100-177 with the whole decoded stream delivered as one batch:
drain full chunks, then — if anything is left — pad the tail to `C` frames
and emit the converter's whole output for it (main.rs:149-177 performs no
truncation of the tail output). -/
def mainResampleOut (f : List (List ℚ) → Option (List (List ℚ))) (C : Nat)
    (input : List (List ℚ)) : Option (List (List ℚ)) :=
  match mainGo f C input with
  | none => none
  | some (out, acc) =>
    if (acc.headD []).length ≠ 0 then
      match f (acc.map fun chn => padIfShort chn C) with
      | none => none
      | some rc => some (List.zipWith (· ++ ·) out rc)
    else some out

/-- Stub converter: always succeeds with a single-channel one-frame output.
Used to instantiate the loop theorems at concrete inputs. -/
def procStub1 : List (List ℚ) → Option (List (List ℚ)) := fun _ => some [[0]]

/-- Stub converter: always succeeds with a single-channel four-frame output
(the per-chunk output length a 2:1 downsampler produces for C = 8). -/
def procStub4 : List (List ℚ) → Option (List (List ℚ)) := fun _ => some [[0, 0, 0, 0]]

/-- Stub converter that fails exactly on the chunk [[1, 1]] and otherwise
returns a single-channel one-frame output. -/
def procFailFirst : List (List ℚ) → Option (List (List ℚ)) := fun chunk =>
  if chunk = [[(1 : ℚ), 1]] then none else some [[9]]

/-- Stub converter that fails on every chunk. -/
def procAlwaysFail : List (List ℚ) → Option (List (List ℚ)) := fun _ => none

/-! ## Helper lemmas about the backward scan -/

/-- The threshold constant is positive. -/
theorem threshold_pos : 0 < threshold := by decide

/-- Declarative activity predicate for a mono buffer: the sample at flattened
index `i` has magnitude at least the threshold (lib.rs counts
`|s| = threshold` as non-silent, since `is_silent` uses strict `<`). -/
def activeAt (samples : List ℚ) (i : Nat) : Prop :=
  threshold ≤ |samples.getD i 0|

instance (samples : List ℚ) : DecidablePred (activeAt samples) := fun _ =>
  inferInstanceAs (Decidable (_ ≤ _))

/-- With one channel, step_by(1) visits every index of the reversed range. -/
theorem scanIndices_one (num : Nat) : scanIndices num 1 = (List.range num).reverse := by
  unfold scanIndices
  rw [List.filter_eq_self]
  intro a _
  simp [Nat.mod_one]

/-- With one channel the frame test is just the activity test at `i`. -/
theorem frameNonSilent_one_iff (samples : List ℚ) (i : Nat) :
    frameNonSilent samples 1 i = true ↔ activeAt samples i := by
  have h1 : List.range 1 = [0] := by decide
  simp [frameNonSilent, h1, is_silent, activeAt, not_lt]

/-- Indices at or beyond the end of a buffer are never active (the default
read is 0, which is silent). -/
theorem not_activeAt_of_le (samples : List ℚ) (j : Nat) (h : samples.length ≤ j) :
    ¬ activeAt samples j := by
  unfold activeAt
  rw [List.getD_eq_getElem?_getD, List.getElem?_eq_none h]
  simpa using threshold_pos

/-- Reading inside the kept region of a `take` is reading the original. -/
theorem getD_take_of_lt (l : List ℚ) (t i : Nat) (h : i < t) (d : ℚ) :
    (l.take t).getD i d = l.getD i d := by
  simp [List.getD_eq_getElem?_getD, List.getElem?_take, h]

/-- A backward scan over a range where the predicate never holds returns the
initial index 0. -/
theorem findRev_getD_zero (p : Nat → Bool) (num : Nat)
    (h : ∀ i, i < num → p i = false) :
    (((List.range num).reverse.find? p).getD 0) = 0 := by
  have hn : (List.range num).reverse.find? p = none := by
    rw [List.find?_eq_none]
    intro a ha
    rw [List.mem_reverse, List.mem_range] at ha
    simp [h a ha]
  rw [hn]
  rfl

/-- A backward scan over a descending range finds the greatest index where
the predicate holds. -/
theorem findRev_getD_greatest (p : Nat → Bool) (num i : Nat) (hi : i < num)
    (hp : p i = true) (hg : ∀ j, i < j → j < num → p j = false) :
    (((List.range num).reverse.find? p).getD 0) = i := by
  induction num with
  | zero => omega
  | succ n ih =>
    have hrev : (List.range (n + 1)).reverse = n :: (List.range n).reverse := by
      rw [List.range_succ, List.reverse_append]
      rfl
    rw [hrev]
    by_cases hin : i = n
    · subst hin
      simp [List.find?_cons, hp]
    · have hi' : i < n := by omega
      have hpn : p n = false := hg n (by omega) (by omega)
      rw [List.find?_cons, hpn]
      exact ih hi' fun j hj1 hj2 => hg j hj1 (by omega)

/-- Mono closed form of the trimmer: one channel always passes the
divisibility check, and the cut index simplifies to
`last_non_silent_index + sample_rate/2`, clamped to the length. -/
theorem trim_mono_eq (samples : List ℚ) (rate : Nat) :
    trim_ending_silence samples 1 rate =
      Except.ok (samples.take
        (min (lastNonSilentIndex samples 1 samples.length + rate / 2) samples.length)) := by
  unfold trim_ending_silence
  simp [Nat.mod_one, Nat.div_one]

/-- Characterization of `last_non_silent_index` for a mono buffer: it is the
greatest active index when one exists, and the initial value 0 when the
whole buffer is silent. -/
theorem lastNonSilentIndex_one_spec (samples : List ℚ) :
    (lastNonSilentIndex samples 1 samples.length < samples.length ∧
        activeAt samples (lastNonSilentIndex samples 1 samples.length) ∧
        ∀ j, lastNonSilentIndex samples 1 samples.length < j → j < samples.length →
          ¬ activeAt samples j) ∨
      (lastNonSilentIndex samples 1 samples.length = 0 ∧
        ∀ j, j < samples.length → ¬ activeAt samples j) := by
  unfold lastNonSilentIndex
  rw [scanIndices_one]
  by_cases hex : ∃ i, i < samples.length ∧ activeAt samples i
  · left
    obtain ⟨i, hi, hact⟩ := hex
    have hnotn : ¬ activeAt samples samples.length :=
      not_activeAt_of_le samples samples.length le_rfl
    have hPM : activeAt samples (Nat.findGreatest (activeAt samples) samples.length) :=
      Nat.findGreatest_spec hi.le hact
    have hMle : Nat.findGreatest (activeAt samples) samples.length ≤ samples.length :=
      Nat.findGreatest_le samples.length
    have hMlt : Nat.findGreatest (activeAt samples) samples.length < samples.length := by
      rcases lt_or_eq_of_le hMle with h | h
      · exact h
      · exact absurd (h ▸ hPM) hnotn
    have heq : (((List.range samples.length).reverse.find?
        (frameNonSilent samples 1)).getD 0) =
        Nat.findGreatest (activeAt samples) samples.length := by
      apply findRev_getD_greatest _ _ _ hMlt
      · exact (frameNonSilent_one_iff samples _).mpr hPM
      · intro j hj1 hj2
        have : ¬ activeAt samples j := Nat.findGreatest_is_greatest hj1 hj2.le
        rw [← Bool.not_eq_true]
        exact fun hc => this ((frameNonSilent_one_iff samples j).mp hc)
    rw [heq]
    refine ⟨hMlt, hPM, fun j hj1 hj2 => Nat.findGreatest_is_greatest hj1 hj2.le⟩
  · right
    push_neg at hex
    have heq : (((List.range samples.length).reverse.find?
        (frameNonSilent samples 1)).getD 0) = 0 := by
      apply findRev_getD_zero
      intro j hj
      rw [← Bool.not_eq_true]
      exact fun hc => hex j hj ((frameNonSilent_one_iff samples j).mp hc)
    rw [heq]
    exact ⟨rfl, hex⟩

/-! ## Claim C1 — quantization scale and overflow behaviour -/

/-- C1 is false as stated: (a) the program does not use the single scale
constant 32768.0 at every quantization site — main.rs scales by
`i16::MAX = 32767`, so at sample 1/2 it writes 16383 while
round_towards_zero(sample · 32768) is 16384; (b) out-of-range samples
saturate (Rust float-to-int `as` semantics), they do not wrap: at sample 2,
lib.rs writes 32767, whereas wrapping round_towards_zero(2 · 32768) = 65536
would give 0. -/
theorem C1_counterexample :
    (quantizeMain (1/2) = 16383 ∧ rtzQ ((1/2) * 32768) = 16384) ∧
    (quantizeLib 2 = 32767 ∧ wrap16 (rtzQ (2 * 32768)) = 0) := by
  refine ⟨⟨?_, ?_⟩, ?_, ?_⟩ <;>
    norm_num [quantizeMain, quantizeLib, f32_to_i16, rtzQ, wrap16]

/-- C1 amended: lib.rs's quantization sites compute the saturating
round-toward-zero of `sample * 32768.0`; for every in-range sample
(-1 ≤ s < 1) no saturation occurs and the emitted value is exactly
round_towards_zero(s · 32768).  (main.rs's sites use 32767 instead, and
out-of-range samples saturate to [-32768, 32767] rather than wrapping.) -/
theorem C1_amended_thm (s : ℚ) (h1 : -1 ≤ s) (h2 : s < 1) :
    quantizeLib s = rtzQ (s * 32768) := by
  unfold quantizeLib f32_to_i16
  have hq1 : (-32768 : ℚ) ≤ s * 32768 := by nlinarith
  have hq2 : s * 32768 < 32768 := by nlinarith
  have hlo : -32768 ≤ rtzQ (s * 32768) := by
    unfold rtzQ
    split
    · next h => exact le_trans (by norm_num) (Int.floor_nonneg.mpr h)
    · next h =>
      have : ((-32768 : ℤ) : ℚ) ≤ s * 32768 := by exact_mod_cast hq1
      calc (-32768 : ℤ) = ⌈((-32768 : ℤ) : ℚ)⌉ := (Int.ceil_intCast _).symm
        _ ≤ ⌈s * 32768⌉ := Int.ceil_le_ceil this
  have hhi : rtzQ (s * 32768) ≤ 32767 := by
    unfold rtzQ
    split
    · next h =>
      have : s * 32768 < ((32768 : ℤ) : ℚ) := by exact_mod_cast hq2
      have := Int.floor_lt.mpr this
      omega
    · next h =>
      push_neg at h
      have : ⌈s * 32768⌉ ≤ ⌈(0 : ℚ)⌉ := Int.ceil_le_ceil h.le
      simp only [Int.ceil_zero] at this
      omega
  rw [min_eq_right hhi, max_eq_right hlo]

/-- C1 amended witness at s = 1/2. -/
theorem C1_witness :
    (-1 ≤ (1/2 : ℚ)) ∧ ((1/2 : ℚ) < 1) ∧ quantizeLib (1/2) = rtzQ ((1/2) * 32768) :=
  ⟨by norm_num, by norm_num, C1_amended_thm (1/2) (by norm_num) (by norm_num)⟩

/-! ## Claim C5 — channel-divisibility failure -/

/-- C5: whenever the flattened sample count is not divisible by the channel
count, the trimmer fails with the divisibility error and produces no output.
(The claim's behaviour is what lib.rs:328-338 expresses; note error.rs never
declares the `InvalidSampleCount` variant lib.rs constructs, so the crate as
given does not compile — a code bug, recorded in the results.) -/
theorem C5_divisibility_error (samples : List ℚ) (channels rate : Nat)
    (h : samples.length % channels ≠ 0) :
    trim_ending_silence samples channels rate =
      Except.error (AudioConversionError.InvalidSampleCount
        (invalidCountMsg samples.length channels)) := by
  simp [trim_ending_silence, h]

/-- C5 witness: a 3-sample buffer with 2 channels fails and yields no
partial output. -/
theorem C5_witness :
    (([(0:ℚ), 0, 0]).length % 2 ≠ 0) ∧
      trim_ending_silence [0, 0, 0] 2 5 =
        Except.error (AudioConversionError.InvalidSampleCount (invalidCountMsg 3 2)) :=
  ⟨by decide, C5_divisibility_error [0, 0, 0] 2 5 (by decide)⟩

/-! ## Claim C4 — what the trailing-only trimmer returns -/

/-- C4 is false as stated.  For the mono buffer [1,1,0,0] at sample_rate 2
the last above-threshold sample is at index 1, so truncating "just after the
last non-silent frame" (index 2) extended by the 0.5 s guard (1 frame) would
keep 3 samples; the code keeps only
`last_non_silent_index + channels - 1 + guard = 2` samples.  (The guard is
additionally computed from the trimmer's `sample_rate` argument, which the
pipeline feeds with the source rate, not the target rate.) -/
theorem C4_counterexample :
    trim_ending_silence [1, 1, 0, 0] 1 2 = Except.ok [1, 1] ∧
      ([1, 1] : List ℚ) ≠ ([1, 1, 0, 0] : List ℚ).take (1 + 1 + 2 / 2) := by
  exact ⟨by decide, by decide⟩

/-- C4 amended (mono case): the trimmer returns the first
`min(last + sample_rate/2, len)` samples, where `last` is the greatest index
whose magnitude is at least the threshold (0 when the buffer is silent) —
i.e. the cut is `last + guard`, not `(last+1) + guard`, and the guard uses
the sample_rate argument (the pipeline passes the source rate).  For
channels ≥ 2 the backward scan misindexes (see the counterexample for C7). -/
theorem C4_amended_thm (samples : List ℚ) (rate : Nat) :
    ∃ last,
      trim_ending_silence samples 1 rate =
        Except.ok (samples.take (min (last + rate / 2) samples.length)) ∧
      ((last < samples.length ∧ activeAt samples last ∧
          ∀ j, last < j → j < samples.length → ¬ activeAt samples j) ∨
        (last = 0 ∧ ∀ j, j < samples.length → ¬ activeAt samples j)) :=
  ⟨lastNonSilentIndex samples 1 samples.length, trim_mono_eq samples rate,
    lastNonSilentIndex_one_spec samples⟩

/-! ## Claim C7 — idempotence of the trimmer -/

/-- C7 is false as stated: re-running the trimmer on its own output can trim
further when channels ≥ 2, because the backward scan only visits flattened
indices of the form `num_frames - 1 - k·channels` (lib.rs:342 mixes frame
and flattened indexing).  For the 2-channel buffer below (sample_rate 2),
the first run keeps 8 samples; the second run scans only indices 3 and 1 of
those 8 samples, finds nothing, and cuts down to 3 samples. -/
theorem C7_counterexample :
    trim_ending_silence [0, 0, 0, 0, 0, 1, 0, 0, 0, 0, 0, 0] 2 2 =
        Except.ok [0, 0, 0, 0, 0, 1, 0, 0] ∧
      trim_ending_silence [0, 0, 0, 0, 0, 1, 0, 0] 2 2 = Except.ok [0, 0, 0] ∧
      ([0, 0, 0] : List ℚ) ≠ [0, 0, 0, 0, 0, 1, 0, 0] := by
  exact ⟨by decide, by decide, by decide⟩

/-- C7 amended: for mono buffers (channels = 1) with sample_rate ≥ 2 the
trimmer is idempotent — running it on its own output returns that output
unchanged. -/
theorem C7_amended_thm (samples : List ℚ) (rate : Nat) (out : List ℚ)
    (hrate : 2 ≤ rate) (h : trim_ending_silence samples 1 rate = Except.ok out) :
    trim_ending_silence out 1 rate = Except.ok out := by
  have hG : 1 ≤ rate / 2 := by omega
  have hout : out = samples.take
      (min (lastNonSilentIndex samples 1 samples.length + rate / 2) samples.length) := by
    have h2 := h.symm.trans (trim_mono_eq samples rate)
    injection h2
  have hTn : min (lastNonSilentIndex samples 1 samples.length + rate / 2) samples.length ≤
      samples.length := min_le_right _ _
  have hlen : out.length =
      min (lastNonSilentIndex samples 1 samples.length + rate / 2) samples.length := by
    rw [hout, List.length_take]
    exact min_eq_left hTn
  -- It suffices that the second run's cut index covers the whole output.
  have hkey : out.length ≤ lastNonSilentIndex out 1 out.length + rate / 2 := by
    obtain ⟨L', hL'gen⟩ : ∃ x, lastNonSilentIndex out 1 out.length = x := ⟨_, rfl⟩
    rw [hL'gen]
    have hspec' := lastNonSilentIndex_one_spec out
    rw [hL'gen] at hspec'
    rcases lastNonSilentIndex_one_spec samples with ⟨hLlt, hLact, hLmax⟩ | ⟨hL0, hsilent⟩
    · -- The original buffer has a last active index L, and L < out.length.
      have hLT : lastNonSilentIndex samples 1 samples.length < out.length := by
        rw [hlen]
        exact lt_min (by omega) hLlt
      have hactout : activeAt out (lastNonSilentIndex samples 1 samples.length) := by
        have hgd : out.getD (lastNonSilentIndex samples 1 samples.length) 0 =
            samples.getD (lastNonSilentIndex samples 1 samples.length) 0 := by
          rw [hout]
          exact getD_take_of_lt _ _ _ (lt_min (by omega) hLlt) 0
        unfold activeAt at hLact ⊢
        rwa [hgd]
      rcases hspec' with ⟨hL'lt, hL'act, hL'max⟩ | ⟨_, hsilentout⟩
      · have hle1 : lastNonSilentIndex samples 1 samples.length ≤ L' := by
          by_contra hc
          push_neg at hc
          exact hL'max _ hc hLT hactout
        have hL'T : L' < min (lastNonSilentIndex samples 1 samples.length + rate / 2)
            samples.length := hlen ▸ hL'lt
        have hgd2 : out.getD L' 0 = samples.getD L' 0 := by
          rw [hout]
          exact getD_take_of_lt _ _ _ hL'T 0
        have hactsam : activeAt samples L' := by
          unfold activeAt at hL'act ⊢
          rwa [hgd2] at hL'act
        have hle2 : L' ≤ lastNonSilentIndex samples 1 samples.length := by
          by_contra hc
          push_neg at hc
          exact hLmax _ hc (lt_of_lt_of_le hL'T hTn) hactsam
        have heq : L' = lastNonSilentIndex samples 1 samples.length :=
          le_antisymm hle2 hle1
        rw [heq, hlen]
        exact min_le_left _ _
      · exact absurd hactout (hsilentout _ hLT)
    · -- The original buffer is all silent, hence so is the output.
      have hsilentout : ∀ j, j < out.length → ¬ activeAt out j := by
        intro j hj hact
        have hjT : j < min (lastNonSilentIndex samples 1 samples.length + rate / 2)
            samples.length := hlen ▸ hj
        have hgd : out.getD j 0 = samples.getD j 0 := by
          rw [hout]
          exact getD_take_of_lt _ _ _ hjT 0
        have : activeAt samples j := by
          unfold activeAt at hact ⊢
          rwa [hgd] at hact
        exact hsilent j (lt_of_lt_of_le hjT hTn) this
      rcases hspec' with ⟨hL'lt, hL'act, _⟩ | ⟨hL'0, _⟩
      · exact absurd hL'act (hsilentout _ hL'lt)
      · rw [hL'0, hlen, hL0]
        exact min_le_left _ _
  rw [trim_mono_eq out rate, List.take_of_length_le (le_min hkey le_rfl)]

/-- C7 amended witness: a concrete mono run and its unchanged re-run. -/
theorem C7_witness :
    (2 ≤ 2) ∧ trim_ending_silence [1, 0, 0] 1 2 = Except.ok [1] ∧
      trim_ending_silence [1] 1 2 = Except.ok [1] :=
  ⟨le_rfl, by decide, C7_amended_thm [1, 0, 0] 2 [1] le_rfl (by decide)⟩

/-- C4 amended witness: the characterization instantiated at the mono buffer
[1, 0] with sample_rate 2. -/
theorem C4_witness :
    ∃ last,
      trim_ending_silence [1, 0] 1 2 =
        Except.ok (([1, 0] : List ℚ).take (min (last + 2 / 2) ([1, 0] : List ℚ).length)) ∧
      ((last < ([1, 0] : List ℚ).length ∧ activeAt [1, 0] last ∧
          ∀ j, last < j → j < ([1, 0] : List ℚ).length → ¬ activeAt [1, 0] j) ∨
        (last = 0 ∧ ∀ j, j < ([1, 0] : List ℚ).length → ¬ activeAt [1, 0] j)) :=
  C4_amended_thm [1, 0] 2

/-! ## Claim C9 — the trimmer's result is an unaltered left slice of its input -/

/-- C9: whenever `trim_ending_silence` succeeds, its result is an initial
segment of the input — no longer than the input, equal to `take` of the
input at its own length, and pointwise equal to the input below its
length. -/
theorem C9_trim_result_left_slice (samples : List ℚ) (channels rate : Nat)
    (out : List ℚ) (h : trim_ending_silence samples channels rate = Except.ok out) :
    out.length ≤ samples.length ∧ out = samples.take out.length ∧
      ∀ i, i < out.length → out.getD i 0 = samples.getD i 0 := by
  have hk : ∃ k, out = samples.take k := by
    by_cases hc : samples.length % channels ≠ 0
    · simp [trim_ending_silence, hc] at h
    · simp [trim_ending_silence, hc] at h
      exact ⟨_, h.symm⟩
  obtain ⟨k, hk⟩ := hk
  subst hk
  refine ⟨?_, ?_, ?_⟩
  · rw [List.length_take]
    exact min_le_right _ _
  · rw [List.length_take, ← List.take_take, List.take_length]
  · intro i hi
    rw [List.length_take, lt_min_iff] at hi
    exact getD_take_of_lt _ _ _ hi.1 0

/-- C9 witness at a concrete mono input. -/
theorem C9_witness :
    trim_ending_silence [1, 0] 1 2 = Except.ok [1] ∧
      ([1] : List ℚ).length ≤ ([1, 0] : List ℚ).length ∧
      ([1] : List ℚ) = ([1, 0] : List ℚ).take ([1] : List ℚ).length := by
  have h := C9_trim_result_left_slice [1, 0] 1 2 [1] (by decide)
  exact ⟨by decide, h.1, h.2.1⟩

/-! ## Claim C10 — behaviour on an entirely silent buffer -/

/-- C10 is false as stated only in its "never empty" part: with one channel
and sample_rate 1 (so the guard `floor(0.5·rate) = 0`), the all-silent
buffer [0] trims to the empty list — matching the claim's own formula
`min(channels - 1 + floor(0.5·rate)·channels, len) = 0`. -/
theorem C10_counterexample :
    trim_ending_silence [0] 1 1 = Except.ok [] ∧ ([(0 : ℚ)] ≠ ([] : List ℚ)) :=
  ⟨by decide, by decide⟩

/-- C10 amended: on a non-empty all-silent buffer the last-non-silent index
stays 0 and the result is the first
`min(channels - 1 + (rate/2)·channels, len)` samples; this is non-empty
provided channels ≥ 2 or sample_rate ≥ 2 (for channels = 1 and rate ≤ 1 the
retained count is 0). -/
theorem C10_amended_thm (samples : List ℚ) (channels rate : Nat)
    (hne : samples ≠ []) (hch : 0 < channels) (hdiv : samples.length % channels = 0)
    (hsilent : ∀ s ∈ samples, |s| < threshold)
    (hguard : 2 ≤ channels ∨ 2 ≤ rate) :
    trim_ending_silence samples channels rate =
      Except.ok (samples.take (min (channels - 1 + rate / 2 * channels) samples.length)) ∧
      samples.take (min (channels - 1 + rate / 2 * channels) samples.length) ≠ [] := by
  have hframes : ∀ i, frameNonSilent samples channels i = false := by
    intro i
    unfold frameNonSilent
    rw [List.any_eq_false]
    intro ch _
    simp only [Bool.not_eq_true', is_silent, decide_eq_true_eq, Bool.not_not,
      decide_eq_false_iff_not, not_not, Bool.not_eq_false']
    by_cases hin : i + ch < samples.length
    · have hmem : samples.getD (i + ch) 0 ∈ samples := by
        rw [List.getD_eq_getElem?_getD, List.getElem?_eq_getElem hin]
        exact List.getElem_mem hin
      exact hsilent _ hmem
    · push_neg at hin
      rw [List.getD_eq_getElem?_getD, List.getElem?_eq_none hin]
      simpa using threshold_pos
  have hlast : lastNonSilentIndex samples channels (samples.length / channels) = 0 := by
    unfold lastNonSilentIndex
    have hnone : (scanIndices (samples.length / channels) channels).find?
        (frameNonSilent samples channels) = none := by
      rw [List.find?_eq_none]
      intro x _
      simp [hframes x]
    rw [hnone]
    rfl
  have hK : 0 < channels - 1 + rate / 2 * channels := by
    rcases hguard with h | h
    · omega
    · have h1 : 1 ≤ rate / 2 := by omega
      have h2 : channels ≤ rate / 2 * channels := Nat.le_mul_of_pos_left channels h1
      omega
  have hlen : 0 < samples.length := List.length_pos.mpr hne
  constructor
  · simp [trim_ending_silence, hdiv, hlast]
  · apply List.ne_nil_of_length_pos
    rw [List.length_take]
    exact lt_min (lt_min hK hlen) hlen

/-- C10 amended witness: stereo all-silent buffer at sample_rate 1 keeps one
sample. -/
theorem C10_witness :
    (∀ s ∈ ([0, 0] : List ℚ), |s| < threshold) ∧
      trim_ending_silence [0, 0] 2 1 =
        Except.ok (([0, 0] : List ℚ).take
          (min (2 - 1 + 1 / 2 * 2) ([0, 0] : List ℚ).length)) ∧
      ([0, 0] : List ℚ).take (min (2 - 1 + 1 / 2 * 2) ([0, 0] : List ℚ).length) ≠ [] := by
  have h := C10_amended_thm [0, 0] 2 1 (by decide) (by decide) (by decide) (by decide)
    (Or.inl le_rfl)
  exact ⟨by decide, h.1, h.2⟩

/-! ## Claim C6 — the equal-rates (identity) path -/

/-- C6 is false as stated.  In main.rs (the only pipeline without trimming)
the equal-rates branch scales by 32767, so at sample 1/2 it emits 16383
while `quantize(1/2) = round_towards_zero(1/2 · 32768) = 16384`.  In lib.rs
the emitted value does use scale 32768, but trimming is unconditional, so
the emitted count can be smaller than the decoded count: the 5-sample input
below emits a single sample. -/
theorem C6_counterexample :
    mainIdentityOutput [1/2] = [16383] ∧ rtzQ ((1/2) * 32768) = 16384 ∧
      identityPathOutput [1, 0, 0, 0, 0] 1 2 = Except.ok [32767] ∧
      ([1, 0, 0, 0, 0] : List ℚ).length = 5 := by
  refine ⟨?_, ?_, ?_, by decide⟩
  · norm_num [mainIdentityOutput, quantizeMain, f32_to_i16, rtzQ]
  · norm_num [rtzQ]
  · have htrim : trim_ending_silence [1, 0, 0, 0, 0] 1 2 = Except.ok [1] := by decide
    simp only [identityPathOutput, htrim]
    norm_num [quantizeLib, f32_to_i16, rtzQ]

/-- C6 amended: with equal rates no converter is constructed in either
pipeline; in main.rs the emitted count equals the decoded count and each
emitted value is the saturating truncation of `sample · 32767`; in lib.rs
the emitted list is `quantizeLib` mapped over the (always-applied) trimmer's
output. -/
theorem C6_amended_thm (samples : List ℚ) :
    (mainIdentityOutput samples).length = samples.length ∧
      (∀ i, i < samples.length →
        (mainIdentityOutput samples).getD i 0 = f32_to_i16 (samples.getD i 0 * 32767)) ∧
      (∀ channels rate out, trim_ending_silence samples channels rate = Except.ok out →
        identityPathOutput samples channels rate = Except.ok (out.map quantizeLib)) := by
  refine ⟨by simp [mainIdentityOutput], ?_, ?_⟩
  · intro i hi
    simp [mainIdentityOutput, List.getD_eq_getElem?_getD, List.getElem?_map,
      List.getElem?_eq_getElem hi, quantizeMain]
  · intro channels rate out h
    simp [identityPathOutput, h]

/-- C6 amended witness at the mono buffer [1]. -/
theorem C6_witness :
    (mainIdentityOutput [1]).length = ([1] : List ℚ).length ∧
      (mainIdentityOutput [1]).getD 0 0 = f32_to_i16 (([1] : List ℚ).getD 0 0 * 32767) ∧
      identityPathOutput [1] 1 2 = Except.ok (([1] : List ℚ).map quantizeLib) := by
  have h := C6_amended_thm [1]
  exact ⟨h.1, h.2.1 0 (by norm_num), h.2.2 1 2 [1] (by decide)⟩

/-! ## Helper lemmas about the chunking loop -/

/-- When every channel has length N, so does the channel the loop guards on. -/
theorem headD_length_eq (input : List (List ℚ)) (N : Nat) (hne : input ≠ [])
    (hN : ∀ l ∈ input, l.length = N) : (input.headD []).length = N := by
  cases input with
  | nil => exact absurd rfl hne
  | cons a t => exact hN a (List.mem_cons_self a t)

/-- `resize` always yields exactly the requested length. -/
theorem resizeTo_length (l : List ℚ) (n : Nat) : (resizeTo l n).length = n := by
  unfold resizeTo
  rw [List.length_append, List.length_take, List.length_replicate]
  omega

/-- Every member of a `zipWith` comes from a pair of members. -/
theorem mem_zipWith_pair (g : List ℚ → List ℚ → List ℚ) :
    ∀ (l1 l2 : List (List ℚ)) (o : List ℚ), o ∈ List.zipWith g l1 l2 →
      ∃ a b, a ∈ l1 ∧ b ∈ l2 ∧ o = g a b := by
  intro l1
  induction l1 with
  | nil => intro l2 o h; simp at h
  | cons a t ih =>
    intro l2 o h
    cases l2 with
    | nil => simp at h
    | cons b t2 =>
      rw [List.zipWith_cons_cons] at h
      rcases List.mem_cons.mp h with h | h
      · exact ⟨a, b, List.mem_cons_self a t, List.mem_cons_self b t2, h⟩
      · obtain ⟨x, y, hx, hy, ho⟩ := ih t2 o h
        exact ⟨x, y, List.mem_cons_of_mem a hx, List.mem_cons_of_mem b hy, ho⟩

/-- The full-chunk loop exits at `pos + C·⌊(N - pos)/C⌋`. -/
theorem loopExitPos_eq :
    ∀ (fuel N C pos : Nat), 0 < C → N - pos ≤ fuel →
      loopExitPos N C pos = pos + C * ((N - pos) / C) := by
  intro fuel
  induction fuel with
  | zero =>
    intro N C pos hC hle
    unfold loopExitPos
    rw [dif_neg (by omega)]
    have h0 : N - pos = 0 := by omega
    rw [h0, Nat.zero_div]
    omega
  | succ n ih =>
    intro N C pos hC hle
    unfold loopExitPos
    by_cases hg : pos + C ≤ N
    · rw [dif_pos ⟨hC, hg⟩, ih N C (pos + C) hC (by omega)]
      have h1 : (N - pos) / C = (N - pos - C) / C + 1 := Nat.div_eq_sub_div hC (by omega)
      have h2 : N - (pos + C) = N - pos - C := by omega
      rw [h2, h1]
      ring
    · rw [dif_neg (by omega)]
      have h3 : (N - pos) / C = 0 := Nat.div_eq_of_lt (by omega)
      rw [h3]
      omega

/-- The chunk trace of the while loop, in closed form: one chunk per loop
iteration, the k-th taken at position `pos + k·C`. -/
theorem fullChunkTrace_eq :
    ∀ (fuel : Nat) (input : List (List ℚ)) (C pos : Nat), 0 < C →
      (input.headD []).length - pos ≤ fuel →
      fullChunkTrace input C pos =
        (List.range (((input.headD []).length - pos) / C)).map
          (fun k => chunkAt input C (pos + k * C)) := by
  intro fuel
  induction fuel with
  | zero =>
    intro input C pos hC hle
    unfold fullChunkTrace
    rw [dif_neg (by omega)]
    have h0 : (input.headD []).length - pos = 0 := by omega
    rw [h0, Nat.zero_div]
    simp
  | succ n ih =>
    intro input C pos hC hle
    unfold fullChunkTrace
    by_cases hg : pos + C ≤ (input.headD []).length
    · rw [dif_pos ⟨hC, hg⟩, ih input C (pos + C) hC (by omega)]
      have h1 : ((input.headD []).length - pos) / C =
          ((input.headD []).length - pos - C) / C + 1 :=
        Nat.div_eq_sub_div hC (by omega)
      have h2 : (input.headD []).length - (pos + C) =
          (input.headD []).length - pos - C := by omega
      rw [h2, h1, List.range_succ_eq_map, List.map_cons, List.map_map]
      congr 1
      · simp
      · apply List.map_congr_left
        intro k _
        have h3 : pos + C + k * C = pos + (k + 1) * C := by ring
        simp [Function.comp, h3]
    · rw [dif_neg (by omega)]
      have h3 : ((input.headD []).length - pos) / C = 0 := Nat.div_eq_of_lt (by omega)
      rw [h3]
      simp

/-- Shape invariant of the full-chunk loop output: one output list per
channel, and — when the converter succeeds on every length-C chunk with a
fixed per-channel output length L — every channel's accumulated output has
exactly `⌊(N - pos)/C⌋·L` frames. -/
theorem resampleGo_spec :
    ∀ (fuel : Nat) (f : List (List ℚ) → Option (List (List ℚ))) (C L N : Nat)
      (input : List (List ℚ)) (pos : Nat), 0 < C → input ≠ [] →
      (∀ l ∈ input, l.length = N) →
      (∀ chunk, chunk.length = input.length → (∀ c ∈ chunk, c.length = C) →
        ∃ out, f chunk = some out ∧ out.length = input.length ∧
          ∀ o ∈ out, o.length = L) →
      N - pos ≤ fuel →
      (resampleGo f C input pos).length = input.length ∧
        ∀ o ∈ resampleGo f C input pos, o.length = ((N - pos) / C) * L := by
  intro fuel
  induction fuel with
  | zero =>
    intro f C L N input pos hC hne hN hf hle
    have hH : (input.headD []).length = N := headD_length_eq input N hne hN
    have hstep : resampleGo f C input pos = input.map fun _ => [] := by
      unfold resampleGo
      rw [hH, dif_neg (by omega)]
    rw [hstep]
    constructor
    · simp
    · intro o ho
      obtain ⟨a, _, rfl⟩ := List.mem_map.mp ho
      have h0 : N - pos = 0 := by omega
      rw [h0, Nat.zero_div]
      simp
  | succ n ih =>
    intro f C L N input pos hC hne hN hf hle
    have hH : (input.headD []).length = N := headD_length_eq input N hne hN
    by_cases hg : pos + C ≤ N
    · have hchunk1 : (chunkAt input C pos).length = input.length := by simp [chunkAt]
      have hchunk2 : ∀ c ∈ chunkAt input C pos, c.length = C := by
        intro c hc
        obtain ⟨chn, hchn, rfl⟩ := List.mem_map.mp hc
        rw [List.length_take, List.length_drop, hN chn hchn]
        omega
      obtain ⟨rc, hrc, hrclen, hrcmem⟩ := hf _ hchunk1 hchunk2
      have hrest := ih f C L N input (pos + C) hC hne hN hf (by omega)
      have hstep : resampleGo f C input pos =
          List.zipWith (· ++ ·) rc (resampleGo f C input (pos + C)) := by
        conv_lhs => rw [resampleGo.eq_def]
        rw [hH, dif_pos ⟨hC, hg⟩, hrc]
      rw [hstep]
      constructor
      · rw [List.length_zipWith, hrclen, hrest.1]
        simp
      · intro o ho
        obtain ⟨a, b, ha, hb, rfl⟩ := mem_zipWith_pair _ _ _ _ ho
        rw [List.length_append, hrcmem a ha, hrest.2 b hb]
        have h1 : (N - pos) / C = (N - pos - C) / C + 1 := Nat.div_eq_sub_div hC (by omega)
        have h2 : N - (pos + C) = N - pos - C := by omega
        rw [h2, h1]
        ring
    · have hstep : resampleGo f C input pos = input.map fun _ => [] := by
        unfold resampleGo
        rw [hH, dif_neg (by omega)]
      rw [hstep]
      constructor
      · simp
      · intro o ho
        obtain ⟨a, _, rfl⟩ := List.mem_map.mp ho
        have h3 : (N - pos) / C = 0 := Nat.div_eq_of_lt (by omega)
        rw [h3]
        simp

/-! ## Claim C3 — chunking discipline of the resampling loop -/

/-- C3: the loop processes exactly ⌊N/C⌋ complete chunks, each of exactly C
frames per channel and taken in input order (the k-th at frame position
k·C), and the padded tail chunk is passed exactly once iff N mod C > 0; so
no chunk handed to `process` ever has a per-channel length other than C. -/
theorem C3_chunk_discipline (input : List (List ℚ)) (C N : Nat)
    (hC : 0 < C) (hne : input ≠ []) (hN : ∀ l ∈ input, l.length = N) :
    (resampleTrace input C).length = N / C + (if N % C = 0 then 0 else 1) ∧
      (∀ chunk ∈ resampleTrace input C, chunk.length = input.length ∧
        ∀ c ∈ chunk, c.length = C) ∧
      ∀ k, k < N / C → (resampleTrace input C).getD k [] = chunkAt input C (k * C) := by
  have hH := headD_length_eq input N hne hN
  have htr := fullChunkTrace_eq (N + 1) input C 0 hC (by omega)
  rw [hH] at htr
  simp only [Nat.sub_zero, Nat.zero_add] at htr
  have hpos : loopExitPos N C 0 = C * (N / C) := by
    have h := loopExitPos_eq (N + 1) N C 0 hC (by omega)
    simpa using h
  have hdm := Nat.div_add_mod N C
  have hstep : resampleTrace input C =
      (List.range (N / C)).map (fun k => chunkAt input C (k * C)) ++
        (if N % C ≠ 0 then
          [input.map fun chn => resizeTo (chn.drop (loopExitPos N C 0)) C] else []) := by
    unfold resampleTrace
    rw [hH, htr]
    congr 1
    by_cases hmod : N % C = 0
    · rw [if_neg (by omega), if_neg (by simpa using hmod)]
    · rw [if_pos (by omega), if_pos hmod]
  rw [hstep]
  refine ⟨?_, ?_, ?_⟩
  · rw [List.length_append, List.length_map, List.length_range]
    by_cases hmod : N % C = 0
    · rw [if_neg (by simpa using hmod), if_pos hmod]
      rfl
    · rw [if_pos hmod, if_neg hmod]
      rfl
  · intro chunk hchunk
    rcases List.mem_append.mp hchunk with hm | hm
    · obtain ⟨k, hk, rfl⟩ := List.mem_map.mp hm
      rw [List.mem_range] at hk
      constructor
      · simp [chunkAt]
      · intro c hc
        obtain ⟨chn, hchn, rfl⟩ := List.mem_map.mp hc
        have h1 : (k + 1) * C ≤ N :=
          le_trans (Nat.mul_le_mul_right C hk) (Nat.div_mul_le_self N C)
        rw [List.length_take, List.length_drop, hN chn hchn]
        have h2 : k * C + C ≤ N := by
          calc k * C + C = (k + 1) * C := by ring
            _ ≤ N := h1
        omega
    · by_cases hmod : N % C = 0
      · rw [if_neg (by simpa using hmod)] at hm
        simp at hm
      · rw [if_pos hmod] at hm
        rw [List.mem_singleton] at hm
        subst hm
        constructor
        · simp
        · intro c hc
          obtain ⟨chn, _, rfl⟩ := List.mem_map.mp hc
          exact resizeTo_length _ _
  · intro k hk
    have hklen : k < ((List.range (N / C)).map
        (fun k => chunkAt input C (k * C))).length := by
      rw [List.length_map, List.length_range]
      exact hk
    rw [List.getD_eq_getElem?_getD, List.getElem?_append, if_pos hklen,
      List.getElem?_map, List.getElem?_range hk]
    rfl

/-- C3 witness: a mono 3-frame input with chunk size 2 yields one full chunk
and one padded tail chunk. -/
theorem C3_witness :
    (resampleTrace [[1, 2, 3]] 2).length = 3 / 2 + (if 3 % 2 = 0 then 0 else 1) ∧
      (∀ chunk ∈ resampleTrace [[1, 2, 3]] 2,
        chunk.length = ([[1, 2, 3]] : List (List ℚ)).length ∧
        ∀ c ∈ chunk, c.length = 2) ∧
      ∀ k, k < 3 / 2 →
        (resampleTrace [[1, 2, 3]] 2).getD k [] = chunkAt [[1, 2, 3]] 2 (k * 2) :=
  C3_chunk_discipline [[1, 2, 3]] 2 3 (by norm_num) (by simp)
    (by intro l hl; rw [List.mem_singleton] at hl; rw [hl]; rfl)

/-! ## Claim C2 — tail padding and truncation, and the total output count -/

/-- C2's tail-truncation description is false of main.rs: main.rs pads the
final partial chunk (here 1 leftover frame padded to C = 8) but emits the
converter's whole output for it with no truncation, so with per-chunk output
length L = 4 (a 2:1 ratio), input N = 9, C = 8, the emitted total is 8
frames where the claim's formula `k·L + ⌊r·target/source⌋ = 1·4 + 0 = 4`
allows at most 5 — the pre-trim total is off by 4 frames, beyond the claimed
±1 tolerance. -/
theorem C2_counterexample :
    mainResampleOut procStub4 8 [[1, 1, 1, 1, 1, 1, 1, 1, 1]] =
        some [[0, 0, 0, 0, 0, 0, 0, 0]] ∧
      9 / 8 * 4 + 9 % 8 * 1 / 2 + 1 < 8 := by
  constructor
  · simp [mainResampleOut, mainGo, procStub4, padIfShort]
  · norm_num

/-- C2 amended (lib.rs): when the converter succeeds on every length-C chunk
with per-channel output length L, the final partial chunk is zero-padded to
exactly C frames, its output is truncated to ⌊r·target/source⌋ frames
(r = N mod C > 0), and every channel's total pre-trim output length is
exactly k·L + ⌊r·target/source⌋ — the claimed count, with zero tolerance
needed.  (main.rs's tail emits untruncated, see the counterexample.) -/
theorem C2_amended_thm (f : List (List ℚ) → Option (List (List ℚ)))
    (C L N target source : Nat) (input : List (List ℚ))
    (hC : 0 < C) (hne : input ≠ []) (hs : 0 < source)
    (hN : ∀ l ∈ input, l.length = N)
    (hf : ∀ chunk, chunk.length = input.length → (∀ c ∈ chunk, c.length = C) →
      ∃ out, f chunk = some out ∧ out.length = input.length ∧
        ∀ o ∈ out, o.length = L)
    (hr : 0 < N % C) (hrem : N % C * target / source ≤ L) :
    (resampleAll f C input target source).length = input.length ∧
      ∀ o ∈ resampleAll f C input target source,
        o.length = N / C * L + N % C * target / source := by
  have hH : (input.headD []).length = N := headD_length_eq input N hne hN
  have hpos : loopExitPos N C 0 = C * (N / C) := by
    have h := loopExitPos_eq (N + 1) N C 0 hC (by omega)
    simpa using h
  have hdm := Nat.div_add_mod N C
  have hposlt : loopExitPos N C 0 < N := by omega
  have hNpos : N - loopExitPos N C 0 = N % C := by omega
  have hfc1 : (input.map fun chn =>
      resizeTo (chn.drop (loopExitPos N C 0)) C).length = input.length := by simp
  have hfc2 : ∀ c ∈ (input.map fun chn =>
      resizeTo (chn.drop (loopExitPos N C 0)) C), c.length = C := by
    intro c hc
    obtain ⟨chn, _, rfl⟩ := List.mem_map.mp hc
    exact resizeTo_length _ _
  obtain ⟨rc, hrc, hrclen, hrcmem⟩ := hf _ hfc1 hfc2
  have hgo := resampleGo_spec (N + 1) f C L N input 0 hC hne hN hf (by omega)
  have hstep : resampleAll f C input target source =
      List.zipWith
        (fun a b => a ++ b.take ((N - loopExitPos N C 0) * target / source))
        (resampleGo f C input 0) rc := by
    unfold resampleAll
    rw [hH, if_pos hposlt, hrc]
  rw [hstep]
  constructor
  · rw [List.length_zipWith, hgo.1, hrclen]
    simp
  · intro o ho
    obtain ⟨a, b, ha, hb, rfl⟩ := mem_zipWith_pair _ _ _ _ ho
    rw [List.length_append, List.length_take, hgo.2 a ha, hrcmem b hb, hNpos]
    have h1 : min (N % C * target / source) L = N % C * target / source :=
      min_eq_left hrem
    rw [h1]
    simp

/-- C2 amended witness: mono input of 3 frames, C = 2, equal rates, constant
single-frame converter output; the total is exactly 1·1 + ⌊1·1/1⌋ = 2. -/
theorem C2_witness :
    (∀ chunk : List (List ℚ), chunk.length = ([[1, 2, 3]] : List (List ℚ)).length →
        (∀ c ∈ chunk, c.length = 2) →
        ∃ out, procStub1 chunk = some out ∧
          out.length = ([[1, 2, 3]] : List (List ℚ)).length ∧
          ∀ o ∈ out, o.length = 1) ∧
      (resampleAll procStub1 2 [[1, 2, 3]] 1 1).length =
        ([[1, 2, 3]] : List (List ℚ)).length ∧
      ∀ o ∈ resampleAll procStub1 2 [[1, 2, 3]] 1 1,
        o.length = 3 / 2 * 1 + 3 % 2 * 1 / 1 := by
  have hf : ∀ chunk : List (List ℚ), chunk.length = ([[1, 2, 3]] : List (List ℚ)).length →
      (∀ c ∈ chunk, c.length = 2) →
      ∃ out, procStub1 chunk = some out ∧
        out.length = ([[1, 2, 3]] : List (List ℚ)).length ∧
        ∀ o ∈ out, o.length = 1 := by
    intro chunk _ _
    refine ⟨[[0]], rfl, rfl, ?_⟩
    intro o ho
    rw [List.mem_singleton] at ho
    rw [ho]
    rfl
  have h := C2_amended_thm procStub1 2 1 3 1 1 [[1, 2, 3]] (by norm_num) (by simp)
    (by norm_num) (by intro l hl; rw [List.mem_singleton] at hl; rw [hl]; rfl) hf
    (by norm_num) (by norm_num)
  exact ⟨hf, h.1, h.2⟩

/-! ## Claim C8 — what happens when `process` fails -/

/-- C8 is false as stated: lib.rs's `if let Ok` silently skips a failed
chunk.  With a converter that fails on the first full chunk [[1, 1]] but
succeeds on the padded tail, the conversion completes, emits the tail's
output [[9]], and surfaces no error — the failed chunk's input is skipped
and emission continues. -/
theorem C8_counterexample :
    procFailFirst [[(1 : ℚ), 1]] = none ∧
      resampleAll procFailFirst 2 [[1, 1, 1]] 1 1 = [[9]] := by
  constructor
  · simp [procFailFirst]
  · simp [resampleAll, resampleGo, loopExitPos, chunkAt, resizeTo, procFailFirst]

/-- C8 amended: a failed `process` call is silently swallowed — the chunk
contributes no output, the position advances, and the conversion completes
normally.  In the extreme, a converter failing on every chunk still yields a
successful conversion whose every channel is empty; no `ResamplerError` (or
any error) is surfaced. -/
theorem C8_amended_thm (f : List (List ℚ) → Option (List (List ℚ)))
    (C target source : Nat) (input : List (List ℚ))
    (hfail : ∀ chunk, f chunk = none) :
    resampleAll f C input target source = input.map fun _ => [] := by
  have hgo : ∀ fuel pos, (input.headD []).length - pos ≤ fuel →
      resampleGo f C input pos = input.map fun _ => [] := by
    intro fuel
    induction fuel with
    | zero =>
      intro pos hle
      conv_lhs => rw [resampleGo.eq_def]
      rw [dif_neg (by omega)]
    | succ n ih =>
      intro pos hle
      conv_lhs => rw [resampleGo.eq_def]
      by_cases hg : 0 < C ∧ pos + C ≤ (input.headD []).length
      · rw [dif_pos hg, hfail]
        exact ih (pos + C) (by omega)
      · rw [dif_neg hg]
  unfold resampleAll
  by_cases hp : loopExitPos (input.headD []).length C 0 < (input.headD []).length
  · rw [if_pos hp, hfail]
    exact hgo ((input.headD []).length) 0 (by omega)
  · rw [if_neg hp]
    exact hgo ((input.headD []).length) 0 (by omega)

/-- C8 amended witness: the all-failing converter on a concrete input yields
a successful, empty conversion. -/
theorem C8_witness :
    (∀ chunk, procAlwaysFail chunk = none) ∧
      resampleAll procAlwaysFail 2 [[1, 1, 1]] 1 1 =
        ([[1, 1, 1]] : List (List ℚ)).map fun _ => [] :=
  ⟨fun _ => rfl, C8_amended_thm procAlwaysFail 2 1 1 [[1, 1, 1]] fun _ => rfl⟩

end WavUp
